import Mathlib

/-!
# Site availability checker (`cmd/main.go`)

A shallow embedding of the site checker: the `Site` record, the prober
`checkAvailability`, the bounded fan-out `checkAllSites`, the request counter
(`updateRequestLogs`, `getRequestLogs`) and the selecting HTTP handlers
registered in `main` (`/site`, `/min`, `/max`).

Conventions of the embedding:

* `time.Time` is an integer number of nanoseconds on the process clock,
  `time.Duration` is an `int64` number of nanoseconds held in an `Int`;
* Go `int` is the 64-bit signed integer (as on the 64-bit targets):
  arithmetic on it is followed by `wrapInt64`;
* `[]*Site` is a list of records; the pointers of the list are distinct (they
  are distinct composite literals in `main`), so position `i` of the list is
  the record behind the `i`-th pointer;
* a handler returns the record whose fields it prints (`none` when it writes
  no body) together with the request-counter map it leaves behind.
-/

namespace SiteMonitor

/-! ## Machine integers, durations and instants -/

/-- The constant `math.MaxInt64`. -/
def maxInt64 : Int := 9223372036854775807

/-- The constant `math.MinInt64`. -/
def minInt64 : Int := -9223372036854775808

/-- Two's-complement wrap-around of a 64-bit signed integer operation. -/
def wrapInt64 (x : Int) : Int := (x + 9223372036854775808) % 18446744073709551616 - 9223372036854775808

/-- The method `time.Time.Sub`: the duration `t - u`, saturated to the range of
`time.Duration` as the standard library documents. -/
def timeSub (t u : Int) : Int :=
  if t - u > maxInt64 then maxInt64
  else if t - u < minInt64 then minInt64
  else t - u

/-- The function `time.Since(start)` evaluated when the clock reads `now`. -/
def timeSince (now start : Int) : Int := timeSub now start

/-! ## Data model -/

/-- The struct `Site`. -/
structure Site where
  Name : String
  Availability : Bool
  ResponseTime : Int
  LastCheckedAt : Int
  deriving DecidableEq, Repr

/-- The type `map[string]int` of `SiteChecker.RequestLogs`: finitely many
entries with pairwise distinct keys. -/
abbrev RequestLogs := AList (fun _ : String => Int)

/-- The struct `SiteChecker`. -/
structure SiteChecker where
  Sites : List Site
  Concurrency : Nat
  RequestLogs : RequestLogs

/-! ## Request counter -/

/-- The map read `m[k]`: the zero value when the key is absent. -/
def count (logs : RequestLogs) (k : String) : Int :=
  match logs.lookup k with
  | some v => v
  | none => 0

/-- The method `updateRequestLogs`: `sc.RequestLogs[endpoint]++`. -/
def updateRequestLogs (logs : RequestLogs) (endpoint : String) : RequestLogs :=
  logs.insert endpoint (wrapInt64 (count logs endpoint + 1))

/-- The method `getRequestLogs`: a fresh map filled by ranging over
`sc.RequestLogs` (in the order of the entries) and assigning every pair. -/
def getRequestLogs (logs : RequestLogs) : RequestLogs :=
  logs.foldl (fun requestLogsCopy k v => requestLogsCopy.insert k v) ∅

/-! ## Prober -/

/-- The two results of `http.Get(site.Name)`: a response, or a non-nil error. -/
inductive GetOutcome where
  | response
  | err
  deriving DecidableEq, Repr

/-- The branch of `checkAvailability` on the result of the GET, for a start
timestamp `startTime` and a clock that reads `now` when `time.Since` runs. -/
def recordOutcome (site : Site) (startTime : Int) (outcome : GetOutcome) (now : Int) : Site :=
  match outcome with
  | .err => { site with Availability := false, ResponseTime := maxInt64 }
  | .response => { site with Availability := true, ResponseTime := timeSince now startTime }

/-- The last statement of `checkAvailability`: `site.LastCheckedAt = time.Now()`. -/
def stampChecked (site : Site) (now : Int) : Site :=
  { site with LastCheckedAt := now }

/-- The method `checkAvailability` on one record, given the three clock
readings it takes (`startTime`, the reading inside `time.Since`, the final
`time.Now()`) and the outcome of the GET. -/
def checkAvailability (site : Site) (startTime : Int) (outcome : GetOutcome)
    (sinceNow endNow : Int) : Site :=
  stampChecked (recordOutcome site startTime outcome sinceNow) endNow

/-! ## Query handlers -/

/-- The `/site` handler: scan for the first record whose `Name` equals the
`name` query parameter; on a match count the hit and print the record. -/
def siteHandler : List Site → String → RequestLogs → Option Site × RequestLogs
  | [], _, logs => (none, logs)
  | site :: rest, siteName, logs =>
    if site.Name = siteName then (some site, updateRequestLogs logs "/site")
    else siteHandler rest siteName logs

/-- One iteration of the `/min` loop on the pair `(minResponseTime, minSite)`. -/
def minStep (acc : Int × Option Site) (site : Site) : Int × Option Site :=
  if acc.2.isNone || decide (site.ResponseTime < acc.1) then (site.ResponseTime, some site)
  else acc

/-- The selection loop of the `/min` handler; `minSite` is the result. -/
def minLatency (sites : List Site) : Option Site :=
  (sites.foldl minStep (maxInt64, none)).2

/-- The `/min` handler. -/
def minHandler (sites : List Site) (logs : RequestLogs) : Option Site × RequestLogs :=
  match minLatency sites with
  | some minSite => (some minSite, updateRequestLogs logs "/min")
  | none => (none, logs)

/-- One iteration of the `/max` loop on the pair `(maxResponseTime, maxSite)`. -/
def maxStep (acc : Int × Option Site) (site : Site) : Int × Option Site :=
  if decide (site.ResponseTime > acc.1) && (site.Availability == true) then
    (site.ResponseTime, some site)
  else acc

/-- The selection loop of the `/max` handler; `maxSite` is the result. -/
def maxLatency (sites : List Site) : Option Site :=
  (sites.foldl maxStep (0, none)).2

/-- The `/max` handler. -/
def maxHandler (sites : List Site) (logs : RequestLogs) : Option Site × RequestLogs :=
  match maxLatency sites with
  | some maxSite => (some maxSite, updateRequestLogs logs "/max")
  | none => (none, logs)

/-! ## Scheduler: one tick of `checkAllSites` as an interleaving of atomic steps -/

/-- Where the goroutine of one site stands. -/
inductive Phase where
  /-- The loop has not reached the site. -/
  | idle
  /-- A semaphore slot is taken and the goroutine exists. -/
  | spawned
  /-- The goroutine has read `startTime`. -/
  | started (startTime : Int)
  /-- The GET has returned and `Availability`, `ResponseTime` are written. -/
  | measured
  /-- The field `LastCheckedAt` is written. -/
  | stamped
  /-- The deferred `wg.Done()` of `checkAvailability` has run. -/
  | signalled
  /-- The deferred `<-semaphore` of the goroutine has run. -/
  | released
  deriving DecidableEq, Repr

/-- The atomic steps of a tick. The first and the last belong to the caller of
`checkAllSites`, the others to the goroutine of site `i`; `now` is what the
clock reads when the step runs. -/
inductive Action where
  /-- One loop iteration: `wg.Add(1)`, `semaphore <- struct{}{}`, `go func`. -/
  | launch
  /-- The statement `startTime := time.Now()`. -/
  | start (i : Nat) (now : Int)
  /-- The call `http.Get` returns and the branch on `err` runs. -/
  | respond (i : Nat) (outcome : GetOutcome) (now : Int)
  /-- The statement `site.LastCheckedAt = time.Now()`. -/
  | stamp (i : Nat) (now : Int)
  /-- The deferred `wg.Done()`. -/
  | signal (i : Nat)
  /-- The deferred `<-semaphore`. -/
  | release (i : Nat)
  /-- The call `wg.Wait()` returns. -/
  | wait
  deriving DecidableEq, Repr

/-- The state of a tick: the records, the goroutines, the loop index, the
number of values buffered in `semaphore`, the counter of `wg`, and whether
`checkAllSites` has returned. -/
structure TickState where
  sites : List Site
  phases : List Phase
  next : Nat
  sem : Nat
  wg : Nat
  returned : Bool
  deriving DecidableEq, Repr

/-- The state on entry to `checkAllSites`. -/
def initTick (sites : List Site) : TickState :=
  { sites := sites, phases := List.replicate sites.length Phase.idle,
    next := 0, sem := 0, wg := 0, returned := false }

/-- One atomic step; `none` when the step is not enabled (a send on the full
channel blocks, `wg.Wait()` blocks while the counter is positive, a goroutine
runs its statements in program order). -/
def stepTick (conc : Nat) (s : TickState) : Action → Option TickState
  | .launch =>
    if s.returned = false ∧ s.next < s.sites.length ∧ s.sem < conc then
      some { s with phases := s.phases.set s.next Phase.spawned,
                    next := s.next + 1, sem := s.sem + 1, wg := s.wg + 1 }
    else none
  | .start i now =>
    match s.phases[i]? with
    | some Phase.spawned => some { s with phases := s.phases.set i (Phase.started now) }
    | _ => none
  | .respond i outcome now =>
    match s.phases[i]?, s.sites[i]? with
    | some (Phase.started startTime), some site =>
      some { s with phases := s.phases.set i Phase.measured,
                    sites := s.sites.set i (recordOutcome site startTime outcome now) }
    | _, _ => none
  | .stamp i now =>
    match s.phases[i]?, s.sites[i]? with
    | some Phase.measured, some site =>
      some { s with phases := s.phases.set i Phase.stamped,
                    sites := s.sites.set i (stampChecked site now) }
    | _, _ => none
  | .signal i =>
    match s.phases[i]? with
    | some Phase.stamped => some { s with phases := s.phases.set i Phase.signalled, wg := s.wg - 1 }
    | _ => none
  | .release i =>
    match s.phases[i]? with
    | some Phase.signalled => some { s with phases := s.phases.set i Phase.released, sem := s.sem - 1 }
    | _ => none
  | .wait =>
    if s.returned = false ∧ s.next = s.sites.length ∧ s.wg = 0 then
      some { s with returned := true }
    else none

/-- An interleaving: the steps of a list run one after the other. -/
def runTick (conc : Nat) (s : TickState) : List Action → Option TickState
  | [] => some s
  | a :: rest =>
    match stepTick conc s a with
    | some s1 => runTick conc s1 rest
    | none => none

/-- The clock reading a step takes, if it takes one. -/
def reading : Action → Option Int
  | .start _ now => some now
  | .respond _ _ now => some now
  | .stamp _ now => some now
  | _ => none

/-- The clock readings of an interleaving, in the order they are taken. -/
def clockReadings (tr : List Action) : List Int := tr.filterMap reading

/-- The goroutine holds a semaphore slot: it exists and has not run its
deferred receive. -/
def Phase.holdsSlot : Phase → Bool
  | .idle => false
  | .released => false
  | _ => true

/-- The goroutine is counted by `wg`: `wg.Add(1)` ran for it, `wg.Done()` not yet. -/
def Phase.pending : Phase → Bool
  | .spawned => true
  | .started _ => true
  | .measured => true
  | .stamped => true
  | _ => false

/-- The call of `checkAvailability` for the site has returned. -/
def Phase.checked : Phase → Bool
  | .signalled => true
  | .released => true
  | _ => false

/-- The number of steps the goroutine of a site still has to run. -/
def Phase.stepsLeft : Phase → Nat
  | .idle => 6
  | .spawned => 5
  | .started _ => 4
  | .measured => 3
  | .stamped => 2
  | .signalled => 1
  | .released => 0

/-- The number of steps a tick still has to run before nothing is left to do. -/
def stepsLeft (s : TickState) : Nat :=
  (s.phases.map Phase.stepsLeft).sum + (if s.returned then 0 else 1)

/-! ## Map objects behind references -/

/-- The map objects allocated so far; a reference is a position in the list. -/
structure Heap where
  maps : List RequestLogs

/-- The map behind a reference (the empty map for a reference to nothing). -/
def Heap.read (h : Heap) (p : Nat) : RequestLogs :=
  match h.maps[p]? with
  | some m => m
  | none => ∅

/-- The method `getRequestLogs` on a `SiteChecker` whose `RequestLogs` field is
the reference `p`: `make` allocates a new object, the loop fills it, and the
reference to the new object is returned. -/
def Heap.getRequestLogs (h : Heap) (p : Nat) : Heap × Nat :=
  ({ maps := h.maps ++ [SiteMonitor.getRequestLogs (h.read p)] }, h.maps.length)

/-- The method `updateRequestLogs` on a `SiteChecker` whose `RequestLogs` field
is the reference `p`: the object behind `p` is updated in place. -/
def Heap.updateRequestLogs (h : Heap) (p : Nat) (endpoint : String) : Heap :=
  { maps := h.maps.set p (SiteMonitor.updateRequestLogs (h.read p) endpoint) }

/-! ## Sample runs -/

/-- Two records as `main` creates them: named, never checked. -/
def sampleSites : List Site :=
  [⟨"https://google.com", false, 0, 0⟩, ⟨"https://qq.com", false, 0, 0⟩]

/-- A whole tick over `sampleSites` under `Concurrency = 1` that starts when the
clock reads 100: the first GET answers, the second fails. -/
def sampleTick : List Action :=
  [Action.launch, Action.start 0 100, Action.respond 0 GetOutcome.response 350,
   Action.stamp 0 360, Action.signal 0, Action.release 0,
   Action.launch, Action.start 1 400, Action.respond 1 GetOutcome.err 900,
   Action.stamp 1 910, Action.signal 1, Action.release 1, Action.wait]

/-- The state `sampleTick` ends in. -/
def sampleTickEnd : TickState :=
  { sites := [⟨"https://google.com", true, 250, 360⟩, ⟨"https://qq.com", false, maxInt64, 910⟩],
    phases := [Phase.released, Phase.released],
    next := 2, sem := 0, wg := 0, returned := true }

/-- What the `/max` loop has established after scanning `l`. -/
def MaxInv (l : List Site) (acc : Int × Option Site) : Prop :=
  (acc.2 = none → acc.1 = 0 ∧ ∀ x ∈ l, x.Availability = true → x.ResponseTime ≤ 0) ∧
  (∀ s, acc.2 = some s → acc.1 = s.ResponseTime ∧ s ∈ l ∧ s.Availability = true ∧
    0 < s.ResponseTime ∧ ∀ x ∈ l, x.Availability = true → x.ResponseTime ≤ s.ResponseTime)

/-- What the `/min` loop has established after scanning `l`. -/
def MinInv (l : List Site) (acc : Int × Option Site) : Prop :=
  (acc.2 = none → l = []) ∧
  (∀ s, acc.2 = some s → acc.1 = s.ResponseTime ∧
    ∃ pre post, l = pre ++ s :: post ∧ (∀ x ∈ pre, s.ResponseTime < x.ResponseTime) ∧
      (∀ x ∈ post, s.ResponseTime ≤ x.ResponseTime))

/-- The field `LastCheckedAt` of the site has been written in this tick. -/
def Phase.stampWritten : Phase → Bool
  | .stamped => true
  | .signalled => true
  | .released => true
  | _ => false

/-- What holds of every state of a tick over `n` sites with names `names`
under a semaphore of capacity `conc`. -/
structure TickInv (conc n : Nat) (names : List String) (s : TickState) : Prop where
  len_sites : s.sites.length = n
  len_phases : s.phases.length = n
  names_eq : s.sites.map Site.Name = names
  next_le : s.next ≤ n
  idle_iff : ∀ i, i < n → (s.phases[i]? = some Phase.idle ↔ s.next ≤ i)
  wg_eq : s.wg = s.phases.countP Phase.pending
  sem_eq : s.sem = s.phases.countP Phase.holdsSlot
  sem_le : s.sem ≤ conc
  ret : s.returned = true → s.next = n ∧ s.wg = 0

/-- Every record stamped in this tick carries a time no earlier than `t0`. -/
def StampInv (t0 : Int) (s : TickState) : Prop :=
  ∀ (i : Nat) (ph : Phase) (site : Site), s.phases[i]? = some ph → s.sites[i]? = some site →
    ph.stampWritten = true → t0 ≤ site.LastCheckedAt

/-! ## The `/max` and `/min` selections -/

theorem maxStep_inv (l : List Site) (acc : Int × Option Site) (a : Site)
    (h : MaxInv l acc) : MaxInv (l ++ [a]) (maxStep acc a) := by
  obtain ⟨m, o⟩ := acc
  obtain ⟨hn, hs⟩ := h
  unfold maxStep
  by_cases hc : (decide (a.ResponseTime > m) && (a.Availability == true)) = true
  · simp only [hc, if_true]
    simp only [Bool.and_eq_true, decide_eq_true_eq, beq_iff_eq] at hc
    obtain ⟨hgt, hav⟩ := hc
    have hm : 0 ≤ m ∧ ∀ x ∈ l, x.Availability = true → x.ResponseTime ≤ m := by
      cases o with
      | none =>
        obtain ⟨h0, hall⟩ := hn rfl
        simp only at h0
        subst h0
        exact ⟨le_refl _, hall⟩
      | some s =>
        obtain ⟨h1, _, _, hpos, hall⟩ := hs s rfl
        simp only at h1
        subst h1
        exact ⟨le_of_lt hpos, hall⟩
    refine ⟨fun hcontra => by simp at hcontra, ?_⟩
    intro s hsome
    simp only [Option.some.injEq] at hsome
    subst hsome
    refine ⟨rfl, by simp, hav, by omega, ?_⟩
    intro x hx hxa
    rcases List.mem_append.mp hx with hx | hx
    · have := hm.2 x hx hxa
      omega
    · simp only [List.mem_singleton] at hx
      subst hx
      exact le_refl _
  · simp only [hc]
    simp only [Bool.and_eq_true, decide_eq_true_eq, beq_iff_eq, not_and] at hc
    refine ⟨?_, ?_⟩
    · intro hnone
      obtain ⟨h0, hall⟩ := hn hnone
      refine ⟨h0, ?_⟩
      intro x hx hxa
      rcases List.mem_append.mp hx with hx | hx
      · exact hall x hx hxa
      · simp only [List.mem_singleton] at hx
        subst hx
        simp only at h0
        by_contra hlt
        exact hc (by omega) hxa
    · intro s hsome
      obtain ⟨h1, hmem, hav, hpos, hall⟩ := hs s hsome
      refine ⟨h1, List.mem_append_left _ hmem, hav, hpos, ?_⟩
      intro x hx hxa
      rcases List.mem_append.mp hx with hx | hx
      · exact hall x hx hxa
      · simp only [List.mem_singleton] at hx
        subst hx
        simp only at h1
        by_contra hlt
        exact hc (by omega) hxa

theorem maxLoop_inv (l : List Site) : MaxInv l (l.foldl maxStep (0, none)) := by
  induction l using List.reverseRecOn with
  | nil => exact ⟨fun _ => ⟨rfl, by simp⟩, fun s hs => by simp at hs⟩
  | append_singleton l a ih =>
    rw [List.foldl_append]
    exact maxStep_inv l _ a ih

theorem minStep_inv (l : List Site) (acc : Int × Option Site) (a : Site)
    (h : MinInv l acc) : MinInv (l ++ [a]) (minStep acc a) := by
  obtain ⟨m, o⟩ := acc
  obtain ⟨hn, hs⟩ := h
  unfold minStep
  cases o with
  | none =>
    have hl : l = [] := hn rfl
    subst hl
    simp only [Option.isNone_none, Bool.true_or, if_true]
    refine ⟨fun hcontra => by simp at hcontra, ?_⟩
    intro s hsome
    simp only [Option.some.injEq] at hsome
    subst hsome
    exact ⟨rfl, [], [], by simp, by simp, by simp⟩
  | some s0 =>
    obtain ⟨h1, pre, post, hl, hpre, hpost⟩ := hs s0 rfl
    simp only at h1
    subst h1
    by_cases hc : a.ResponseTime < s0.ResponseTime
    · simp only [Option.isNone_some, Bool.false_or, decide_eq_true_eq, hc, if_true]
      refine ⟨fun hcontra => by simp at hcontra, ?_⟩
      intro s hsome
      simp only [Option.some.injEq] at hsome
      subst hsome
      refine ⟨rfl, l, [], rfl, ?_, by simp⟩
      intro x hx
      rw [hl] at hx
      rcases List.mem_append.mp hx with hx | hx
      · have := hpre x hx
        omega
      · rcases List.mem_cons.mp hx with hx | hx
        · subst hx
          exact hc
        · have := hpost x hx
          omega
    · simp only [Option.isNone_some, Bool.false_or, decide_eq_true_eq, hc, if_false]
      refine ⟨fun hcontra => by simp at hcontra, ?_⟩
      intro s hsome
      simp only [Option.some.injEq] at hsome
      subst hsome
      refine ⟨rfl, pre, post ++ [a], by simp [hl], hpre, ?_⟩
      intro x hx
      rcases List.mem_append.mp hx with hx | hx
      · exact hpost x hx
      · simp only [List.mem_singleton] at hx
        subst hx
        omega

theorem minLoop_inv (l : List Site) : MinInv l (l.foldl minStep (maxInt64, none)) := by
  induction l using List.reverseRecOn with
  | nil => exact ⟨fun _ => rfl, fun s hs => by simp at hs⟩
  | append_singleton l a ih =>
    rw [List.foldl_append]
    exact minStep_inv l _ a ih

/-- The `/max` selection, characterised: a selected record is an available
record of the list with a positive latency that no available record exceeds,
and nothing is selected exactly when no available record has a positive
latency. -/
theorem maxLatency_spec (sites : List Site) :
    (∀ s, maxLatency sites = some s → s ∈ sites ∧ s.Availability = true ∧
      0 < s.ResponseTime ∧
      ∀ x ∈ sites, x.Availability = true → x.ResponseTime ≤ s.ResponseTime) ∧
    (maxLatency sites = none ↔
      ∀ x ∈ sites, x.Availability = true → x.ResponseTime ≤ 0) := by
  have h := maxLoop_inv sites
  unfold maxLatency
  refine ⟨fun s hs => (h.2 s hs).2, ⟨fun hn => (h.1 hn).2, ?_⟩⟩
  intro hall
  cases hres : (sites.foldl maxStep (0, none)).2 with
  | none => rfl
  | some s =>
    obtain ⟨_, hmem, hav, hpos, _⟩ := h.2 s hres
    have := hall s hmem hav
    omega

/-- C1: the `/max` handler never selects a record whose `Availability` is
false (a selected record is an available record of the list), and when every
record of the list is unavailable, the empty list included, it selects
nothing, writes no body and leaves the request counter as it was. -/
theorem maxHandler_only_available (sites : List Site) (logs : RequestLogs) :
    (∀ s, (maxHandler sites logs).1 = some s → s ∈ sites ∧ s.Availability = true) ∧
    ((∀ x ∈ sites, x.Availability = false) → maxHandler sites logs = (none, logs)) := by
  obtain ⟨hsome, hnone⟩ := maxLatency_spec sites
  unfold maxHandler
  refine ⟨?_, ?_⟩
  · intro s hs
    cases hres : maxLatency sites with
    | none => simp [hres] at hs
    | some m =>
      simp only [hres, Option.some.injEq] at hs
      subst hs
      exact ⟨(hsome m hres).1, (hsome m hres).2.1⟩
  · intro hall
    have hn : maxLatency sites = none := by
      apply hnone.2
      intro x hx hxa
      rw [hall x hx] at hxa
      exact absurd hxa (by decide)
    simp [hn]

/-- C1, at an instance: three unavailable records carrying the sentinel. -/
theorem maxHandler_only_available_witness :
    maxHandler
      [⟨"https://google.com", false, maxInt64, 5⟩, ⟨"https://qq.com", false, maxInt64, 6⟩,
       ⟨"https://vk.com", false, 0, 0⟩] ∅ = (none, ∅) :=
  (maxHandler_only_available _ ∅).2 (by decide)

/-- C2, at the failing input: a single available record whose latency is zero
is not selected by the `/max` loop, although it is available. -/
theorem maxLatency_zero_latency_not_found :
    maxLatency [⟨"https://google.com", true, 0, 1⟩] = none ∧
    maxHandler [⟨"https://google.com", true, 0, 1⟩] ∅ = (none, ∅) := by
  constructor <;> rfl

/-- C3: on a non-empty list the `/min` handler selects a record of the list
whose latency is at most the latency of every record of the list, whatever
the `Availability` flags are; on the empty list it selects nothing and
leaves the request counter as it was. -/
theorem minHandler_least_of_all (sites : List Site) (logs : RequestLogs) :
    (sites ≠ [] → ∃ s, (minHandler sites logs).1 = some s ∧ s ∈ sites ∧
      ∀ x ∈ sites, s.ResponseTime ≤ x.ResponseTime) ∧
    minHandler [] logs = (none, logs) := by
  refine ⟨?_, rfl⟩
  intro hne
  have h := minLoop_inv sites
  unfold minHandler minLatency
  cases hres : (sites.foldl minStep (maxInt64, none)).2 with
  | none => exact absurd (h.1 hres) hne
  | some s =>
    obtain ⟨_, pre, post, hl, hpre, hpost⟩ := h.2 s hres
    refine ⟨s, rfl, by simp [hl], ?_⟩
    intro x hx
    rw [hl] at hx
    rcases List.mem_append.mp hx with hx | hx
    · exact le_of_lt (hpre x hx)
    · rcases List.mem_cons.mp hx with hx | hx
      · subst hx
        exact le_refl _
      · exact hpost x hx

/-- C3, at an instance: an unavailable record with the sentinel, a
never-checked record with latency zero and an available record. -/
theorem minHandler_least_of_all_witness :
    ∃ s, (minHandler
      [⟨"https://google.com", false, maxInt64, 5⟩, ⟨"https://qq.com", false, 0, 0⟩,
       ⟨"https://vk.com", true, 7, 9⟩] ∅).1 = some s ∧
      s ∈ ([⟨"https://google.com", false, maxInt64, 5⟩, ⟨"https://qq.com", false, 0, 0⟩,
       ⟨"https://vk.com", true, 7, 9⟩] : List Site) ∧
      ∀ x ∈ ([⟨"https://google.com", false, maxInt64, 5⟩, ⟨"https://qq.com", false, 0, 0⟩,
       ⟨"https://vk.com", true, 7, 9⟩] : List Site), s.ResponseTime ≤ x.ResponseTime :=
  (minHandler_least_of_all _ ∅).1 (by simp)

/-- C10: on a non-empty list the `/min` handler selects the earliest record of
the list among those with the least latency (every record before it has a
strictly larger latency, every record after it a latency at least as large)
and counts a hit under "/min"; in particular when every record carries the
sentinel `math.MaxInt64` it selects the first record of the list. -/
theorem minHandler_first_minimum (sites : List Site) (logs : RequestLogs)
    (hne : sites ≠ []) :
    (∃ s pre post, minHandler sites logs = (some s, updateRequestLogs logs "/min") ∧
      sites = pre ++ s :: post ∧
      (∀ x ∈ pre, s.ResponseTime < x.ResponseTime) ∧
      (∀ x ∈ post, s.ResponseTime ≤ x.ResponseTime)) ∧
    ((∀ x ∈ sites, x.Availability = false ∧ x.ResponseTime = maxInt64) →
      minHandler sites logs = (sites.head?, updateRequestLogs logs "/min")) := by
  have h := minLoop_inv sites
  have key : ∃ s pre post, minHandler sites logs = (some s, updateRequestLogs logs "/min") ∧
      sites = pre ++ s :: post ∧
      (∀ x ∈ pre, s.ResponseTime < x.ResponseTime) ∧
      (∀ x ∈ post, s.ResponseTime ≤ x.ResponseTime) := by
    unfold minHandler minLatency
    cases hres : (sites.foldl minStep (maxInt64, none)).2 with
    | none => exact absurd (h.1 hres) hne
    | some s =>
      obtain ⟨_, pre, post, hl, hpre, hpost⟩ := h.2 s hres
      exact ⟨s, pre, post, rfl, hl, hpre, hpost⟩
  refine ⟨key, ?_⟩
  intro hall
  obtain ⟨s, pre, post, hres, hl, hpre, _⟩ := key
  cases pre with
  | nil =>
    rw [hres, hl]
    rfl
  | cons y ys =>
    exfalso
    have hy : y ∈ sites := by simp [hl]
    have hsm : s ∈ sites := by simp [hl]
    have h1 := (hall y hy).2
    have h2 := (hall s hsm).2
    have h3 := hpre y (by simp)
    omega

/-- C10, at an instance: two unavailable records with the sentinel; the first
one is selected and a hit is counted. -/
theorem minHandler_first_minimum_witness :
    minHandler
      [⟨"https://google.com", false, maxInt64, 5⟩, ⟨"https://qq.com", false, maxInt64, 6⟩] ∅ =
      (some ⟨"https://google.com", false, maxInt64, 5⟩, updateRequestLogs ∅ "/min") :=
  (minHandler_first_minimum _ ∅ (by simp)).2 (by decide)

/-! ## The request counter -/

theorem wrapInt64_of_range (x : Int) (hlo : minInt64 ≤ x) (hhi : x ≤ maxInt64) :
    wrapInt64 x = x := by
  unfold wrapInt64
  unfold minInt64 at hlo
  unfold maxInt64 at hhi
  omega

theorem count_updateRequestLogs_same (logs : RequestLogs) (e : String) :
    count (updateRequestLogs logs e) e = wrapInt64 (count logs e + 1) := by
  simp [updateRequestLogs, count, AList.lookup_insert]

theorem lookup_updateRequestLogs_same (logs : RequestLogs) (e : String) :
    (updateRequestLogs logs e).lookup e = some (wrapInt64 (count logs e + 1)) := by
  simp [updateRequestLogs, AList.lookup_insert]

theorem lookup_updateRequestLogs_ne (logs : RequestLogs) (e r : String) (h : r ≠ e) :
    (updateRequestLogs logs e).lookup r = logs.lookup r := by
  simp [updateRequestLogs, AList.lookup_insert_ne h]

theorem count_updateRequestLogs_ne (logs : RequestLogs) (e r : String) (h : r ≠ e) :
    count (updateRequestLogs logs e) r = count logs r := by
  simp [count, lookup_updateRequestLogs_ne logs e r h]

theorem foldl_insert_lookup (l : List (Sigma fun _ : String => Int)) (hl : l.NodupKeys)
    (acc : RequestLogs) (k : String) :
    (l.foldl (fun r e => r.insert e.1 e.2) acc).lookup k =
      match l.dlookup k with
      | some v => some v
      | none => acc.lookup k := by
  induction l generalizing acc with
  | nil => simp
  | cons e rest ih =>
    obtain ⟨a, b⟩ := e
    rw [List.nodupKeys_cons] at hl
    rw [List.foldl_cons, ih hl.2]
    by_cases hk : k = a
    · subst hk
      have hnone : List.dlookup k rest = none := List.dlookup_eq_none.mpr hl.1
      simp [hnone, AList.lookup_insert]
    · rw [List.dlookup_cons_ne rest ⟨a, b⟩ hk]
      cases List.dlookup k rest with
      | none => simp [AList.lookup_insert_ne hk]
      | some v => rfl

theorem getRequestLogs_lookup (logs : RequestLogs) (k : String) :
    (getRequestLogs logs).lookup k = logs.lookup k := by
  unfold getRequestLogs AList.foldl
  rw [foldl_insert_lookup logs.entries logs.nodupKeys ∅ k]
  have : logs.lookup k = List.dlookup k logs.entries := rfl
  rw [this]
  cases List.dlookup k logs.entries with
  | none => simp
  | some v => rfl

/-- C8 as stated fails at the top of the `int` range: a route whose count is
`math.MaxInt64` is taken by `updateRequestLogs` to `math.MinInt64`, which is
negative, smaller than before, and not the previous count plus one. -/
theorem updateRequestLogs_wraps_at_maxInt64 :
    count ((∅ : RequestLogs).insert "/site" 9223372036854775807) "/site" = 9223372036854775807 ∧
    count (updateRequestLogs ((∅ : RequestLogs).insert "/site" 9223372036854775807) "/site")
      "/site" = -9223372036854775808 := by
  have h : count ((∅ : RequestLogs).insert "/site" 9223372036854775807) "/site" =
      9223372036854775807 := by
    unfold count
    rw [AList.lookup_insert]
  refine ⟨h, ?_⟩
  rw [count_updateRequestLogs_same, h]
  decide

/-- C8, amended: for a route whose count is an `int` below `math.MaxInt64`,
`updateRequestLogs` makes the count the previous count plus one (an absent
route counts as zero and gets an entry), leaves every other route as it was,
keeps a non-negative count non-negative and does not decrease it; and `k`
increments of one route from the empty map give exactly `k` for every `k`
up to `math.MaxInt64`. -/
theorem updateRequestLogs_increments (logs : RequestLogs) (route : String)
    (hlo : minInt64 ≤ count logs route) (hhi : count logs route < maxInt64) :
    count (updateRequestLogs logs route) route = count logs route + 1 ∧
    (updateRequestLogs logs route).lookup route = some (count logs route + 1) ∧
    (logs.lookup route = none → (updateRequestLogs logs route).lookup route = some 1) ∧
    (∀ r, r ≠ route → (updateRequestLogs logs route).lookup r = logs.lookup r) ∧
    (0 ≤ count logs route → 0 ≤ count (updateRequestLogs logs route) route) ∧
    count logs route ≤ count (updateRequestLogs logs route) route ∧
    (∀ k : Nat, (k : Int) ≤ maxInt64 →
      count ((fun m => updateRequestLogs m route)^[k] ∅) route = k) := by
  have hw : wrapInt64 (count logs route + 1) = count logs route + 1 :=
    wrapInt64_of_range _ (by omega) (by omega)
  have h1 : count (updateRequestLogs logs route) route = count logs route + 1 := by
    rw [count_updateRequestLogs_same, hw]
  refine ⟨h1, ?_, ?_, ?_, ?_, ?_, ?_⟩
  · rw [lookup_updateRequestLogs_same, hw]
  · intro hnone
    rw [lookup_updateRequestLogs_same, hw]
    simp [count, hnone]
  · intro r hr
    exact lookup_updateRequestLogs_ne logs route r hr
  · intro h0
    omega
  · omega
  · intro k
    induction k with
    | zero =>
      intro _
      simp [count]
    | succ n ih =>
      intro hk
      have hn : (n : Int) ≤ maxInt64 := by push_cast at hk; omega
      rw [Function.iterate_succ_apply', count_updateRequestLogs_same, ih hn]
      rw [wrapInt64_of_range _ (by unfold minInt64; omega) (by push_cast at hk; omega)]
      push_cast
      rfl

/-- C8, at an instance: the first hit of a route on the empty map. -/
theorem updateRequestLogs_increments_witness :
    count (updateRequestLogs ∅ "/min") "/min" = count ∅ "/min" + 1 :=
  (updateRequestLogs_increments ∅ "/min" (by decide) (by decide)).1

/-- C6 as stated fails at the top of the `int` range: with the count of
"/site" at `math.MaxInt64` the `/site` handler finds the record and leaves the
count at `math.MinInt64`, which is not the previous count plus one. -/
theorem siteHandler_wraps_at_maxInt64 :
    (siteHandler [⟨"https://vk.com", true, 7, 9⟩] "https://vk.com"
      ((∅ : RequestLogs).insert "/site" 9223372036854775807)).1 =
        some ⟨"https://vk.com", true, 7, 9⟩ ∧
    count ((∅ : RequestLogs).insert "/site" 9223372036854775807) "/site" =
      9223372036854775807 ∧
    count (siteHandler [⟨"https://vk.com", true, 7, 9⟩] "https://vk.com"
      ((∅ : RequestLogs).insert "/site" 9223372036854775807)).2 "/site" =
        -9223372036854775808 := by
  have h : count ((∅ : RequestLogs).insert "/site" 9223372036854775807) "/site" =
      9223372036854775807 := by
    unfold count
    rw [AList.lookup_insert]
  have hres : siteHandler [⟨"https://vk.com", true, 7, 9⟩] "https://vk.com"
      ((∅ : RequestLogs).insert "/site" 9223372036854775807) =
      (some ⟨"https://vk.com", true, 7, 9⟩,
        updateRequestLogs ((∅ : RequestLogs).insert "/site" 9223372036854775807) "/site") := by
    simp [siteHandler]
  refine ⟨by rw [hres], h, ?_⟩
  rw [hres]
  simp only
  rw [count_updateRequestLogs_same, h]
  decide

/-- C6, amended: the `/site` handler prints a record exactly when some record
of the list has a `Name` equal to the query string; the record printed is the
first such record in list order, and then the map left behind is the old one
after one `updateRequestLogs("/site")`: every other route is as before, and
the count of "/site" is the previous count plus one whenever that count is an
`int` below `math.MaxInt64` (in general it is the wrapped `int` increment);
when no record matches the map is unchanged. -/
theorem siteHandler_exact_first_match (sites : List Site) (siteName : String)
    (logs : RequestLogs) :
    ((∃ s, (siteHandler sites siteName logs).1 = some s) ↔ ∃ x ∈ sites, x.Name = siteName) ∧
    (∀ s, (siteHandler sites siteName logs).1 = some s →
      (∃ pre post, sites = pre ++ s :: post ∧ s.Name = siteName ∧
        ∀ x ∈ pre, x.Name ≠ siteName) ∧
      (siteHandler sites siteName logs).2 = updateRequestLogs logs "/site" ∧
      count (siteHandler sites siteName logs).2 "/site" = wrapInt64 (count logs "/site" + 1) ∧
      (minInt64 ≤ count logs "/site" → count logs "/site" < maxInt64 →
        count (siteHandler sites siteName logs).2 "/site" = count logs "/site" + 1) ∧
      ∀ r, r ≠ "/site" → (siteHandler sites siteName logs).2.lookup r = logs.lookup r) ∧
    ((siteHandler sites siteName logs).1 = none →
      (siteHandler sites siteName logs).2 = logs) := by
  induction sites with
  | nil =>
    refine ⟨?_, ?_, ?_⟩
    · simp [siteHandler]
    · intro s hs
      simp [siteHandler] at hs
    · intro _
      rfl
  | cons site rest ih =>
    by_cases hname : site.Name = siteName
    · have hres : siteHandler (site :: rest) siteName logs =
          (some site, updateRequestLogs logs "/site") := by
        simp [siteHandler, hname]
      rw [hres]
      refine ⟨?_, ?_, ?_⟩
      · constructor
        · intro _
          exact ⟨site, by simp, hname⟩
        · intro _
          exact ⟨site, rfl⟩
      · intro s hs
        simp only [Option.some.injEq] at hs
        subst hs
        refine ⟨⟨[], rest, rfl, hname, by simp⟩, rfl, count_updateRequestLogs_same _ _, ?_, ?_⟩
        · intro hlo hhi
          simp only
          rw [count_updateRequestLogs_same, wrapInt64_of_range _ (by omega) (by omega)]
        · intro r hr
          exact lookup_updateRequestLogs_ne logs "/site" r hr
      · intro hcontra
        simp at hcontra
    · have hres : siteHandler (site :: rest) siteName logs = siteHandler rest siteName logs := by
        simp [siteHandler, hname]
      rw [hres]
      obtain ⟨ih1, ih2, ih3⟩ := ih
      refine ⟨?_, ?_, ih3⟩
      · rw [ih1]
        constructor
        · rintro ⟨x, hx, hxn⟩
          exact ⟨x, List.mem_cons_of_mem _ hx, hxn⟩
        · rintro ⟨x, hx, hxn⟩
          rcases List.mem_cons.mp hx with hx | hx
          · subst hx
            exact absurd hxn hname
          · exact ⟨x, hx, hxn⟩
      · intro s hs
        obtain ⟨⟨pre, post, hl, hsn, hpre⟩, hrest⟩ := ih2 s hs
        refine ⟨⟨site :: pre, post, by simp [hl], hsn, ?_⟩, hrest⟩
        intro x hx
        rcases List.mem_cons.mp hx with hx | hx
        · subst hx
          exact hname
        · exact hpre x hx

/-- C6, at an instance: the second of two records matches the query and the
first hit of "/site" is counted on the empty map. -/
theorem siteHandler_exact_first_match_witness :
    count (siteHandler [⟨"https://qq.com", false, 0, 0⟩, ⟨"https://vk.com", true, 7, 9⟩]
      "https://vk.com" ∅).2 "/site" = count ∅ "/site" + 1 :=
  ((siteHandler_exact_first_match _ "https://vk.com" ∅).2.1 ⟨"https://vk.com", true, 7, 9⟩
    (by decide)).2.2.2.1 (by decide) (by decide)

theorem Heap.read_update_ne (h : Heap) (p q : Nat) (e : String) (hq : q ≠ p) :
    (h.updateRequestLogs p e).read q = h.read q := by
  unfold Heap.updateRequestLogs Heap.read
  simp only
  rw [List.getElem?_set_ne (Ne.symm hq)]

theorem Heap.read_update_same (h : Heap) (p : Nat) (e : String) (hp : p < h.maps.length) :
    (h.updateRequestLogs p e).read p = SiteMonitor.updateRequestLogs (h.read p) e := by
  unfold Heap.updateRequestLogs
  simp only [Heap.read, List.getElem?_set_self hp]

theorem Heap.length_update (h : Heap) (p : Nat) (e : String) :
    (h.updateRequestLogs p e).maps.length = h.maps.length := by
  simp [Heap.updateRequestLogs]

theorem Heap.read_updates_ne (routes : List String) (h : Heap) (p q : Nat) (hq : q ≠ p) :
    (routes.foldl (fun hh e => hh.updateRequestLogs p e) h).read q = h.read q := by
  induction routes generalizing h with
  | nil => rfl
  | cons e rest ih =>
    rw [List.foldl_cons, ih, Heap.read_update_ne h p q e hq]

theorem Heap.read_updates_same (routes : List String) (h : Heap) (p : Nat)
    (hp : p < h.maps.length) :
    (routes.foldl (fun hh e => hh.updateRequestLogs p e) h).read p =
      routes.foldl SiteMonitor.updateRequestLogs (h.read p) := by
  induction routes generalizing h with
  | nil => rfl
  | cons e rest ih =>
    rw [List.foldl_cons, List.foldl_cons, ih _ (by rw [Heap.length_update]; exact hp),
      Heap.read_update_same h p e hp]

/-- C7: `getRequestLogs` returns a reference to a map with exactly the keys
and counts of `RequestLogs` at call time and leaves `RequestLogs` (and every
other existing map) as it was; after any sequence of `updateRequestLogs`
calls on the live map, the map behind the returned reference is still what it
was when it was returned, while the live map has taken every increment. -/
theorem getRequestLogs_independent_snapshot (h : Heap) (p : Nat) (hp : p < h.maps.length)
    (routes : List String) :
    (∀ k, ((h.getRequestLogs p).1.read (h.getRequestLogs p).2).lookup k =
      (h.read p).lookup k) ∧
    (∀ q, q < h.maps.length → (h.getRequestLogs p).1.read q = h.read q) ∧
    (routes.foldl (fun hh e => hh.updateRequestLogs p e) (h.getRequestLogs p).1).read
        (h.getRequestLogs p).2 =
      (h.getRequestLogs p).1.read (h.getRequestLogs p).2 ∧
    (routes.foldl (fun hh e => hh.updateRequestLogs p e) (h.getRequestLogs p).1).read p =
      routes.foldl SiteMonitor.updateRequestLogs (h.read p) := by
  have hold : ∀ q, q < h.maps.length → (h.getRequestLogs p).1.read q = h.read q := by
    intro q hq
    simp only [Heap.getRequestLogs, Heap.read]
    rw [List.getElem?_append_left hq]
  have hnew : (h.getRequestLogs p).1.read (h.getRequestLogs p).2 =
      SiteMonitor.getRequestLogs (h.read p) := by
    simp only [Heap.getRequestLogs]
    simp [Heap.read]
  refine ⟨?_, hold, ?_, ?_⟩
  · intro k
    rw [hnew, getRequestLogs_lookup]
  · apply Heap.read_updates_ne
    simp only [Heap.getRequestLogs]
    omega
  · rw [Heap.read_updates_same routes _ p (by simp [Heap.getRequestLogs]; omega), hold p hp]

/-- C7, at an instance: a snapshot of a map holding one count of "/min",
followed by a hit of "/min" and a hit of "/max" on the live map. -/
theorem getRequestLogs_independent_snapshot_witness :
    ((["/min", "/max"].foldl (fun hh e => hh.updateRequestLogs 0 e)
        ((Heap.mk [updateRequestLogs ∅ "/min"]).getRequestLogs 0).1).read
        ((Heap.mk [updateRequestLogs ∅ "/min"]).getRequestLogs 0).2).lookup "/min" =
      some 1 := by
  have h := getRequestLogs_independent_snapshot (Heap.mk [updateRequestLogs ∅ "/min"]) 0
    (by decide) ["/min", "/max"]
  rw [h.2.2.1, h.1]
  decide

/-! ## The prober -/

/-- C4: `checkAvailability` sets the fields by the outcome of the GET. After an
error `Availability` is false and `ResponseTime` is the sentinel
`math.MaxInt64`; after a response `Availability` is true and `ResponseTime` is
`time.Since(startTime)`, which is non-negative when the clock has not gone
back since `startTime` and is the difference of the two readings when that
fits a `time.Duration`. In both cases `Name` is kept and `LastCheckedAt` is
the final reading. -/
theorem checkAvailability_sets_fields (site : Site) (startTime sinceNow endNow : Int) :
    ((checkAvailability site startTime GetOutcome.err sinceNow endNow).Availability = false ∧
     (checkAvailability site startTime GetOutcome.err sinceNow endNow).ResponseTime =
        9223372036854775807) ∧
    ((checkAvailability site startTime GetOutcome.response sinceNow endNow).Availability = true ∧
     (checkAvailability site startTime GetOutcome.response sinceNow endNow).ResponseTime =
        timeSince sinceNow startTime ∧
     (startTime ≤ sinceNow →
        0 ≤ (checkAvailability site startTime GetOutcome.response sinceNow endNow).ResponseTime) ∧
     (startTime ≤ sinceNow → sinceNow - startTime ≤ maxInt64 →
        (checkAvailability site startTime GetOutcome.response sinceNow endNow).ResponseTime =
          sinceNow - startTime)) ∧
    (∀ outcome, (checkAvailability site startTime outcome sinceNow endNow).Name = site.Name ∧
      (checkAvailability site startTime outcome sinceNow endNow).LastCheckedAt = endNow) := by
  refine ⟨⟨rfl, rfl⟩, ⟨rfl, rfl, ?_, ?_⟩, ?_⟩
  · intro hle
    simp only [checkAvailability, stampChecked, recordOutcome, timeSince, timeSub, maxInt64,
      minInt64]
    split_ifs <;> omega
  · intro hle hfit
    simp only [checkAvailability, stampChecked, recordOutcome, timeSince, timeSub, maxInt64,
      minInt64] at hfit ⊢
    split_ifs <;> omega
  · intro outcome
    cases outcome <;> exact ⟨rfl, rfl⟩

/-- C4, at an instance: a GET that answers 250 ns after the start. -/
theorem checkAvailability_sets_fields_witness :
    (checkAvailability ⟨"https://vk.com", false, 0, 0⟩ 1000 GetOutcome.response 1250
      1300).ResponseTime = 1250 - 1000 :=
  (checkAvailability_sets_fields ⟨"https://vk.com", false, 0, 0⟩ 1000 1250 1300).2.1.2.2.2
    (by decide) (by decide)

/-! ## One tick of `checkAllSites` -/

theorem countP_set_phase (f : Phase → Bool) (l : List Phase) (i : Nat) (old new : Phase)
    (h : l[i]? = some old) :
    (l.set i new).countP f + (if f old then 1 else 0) =
      l.countP f + (if f new then 1 else 0) := by
  induction l generalizing i with
  | nil => simp at h
  | cons x xs ih =>
    cases i with
    | zero =>
      simp only [List.getElem?_cons_zero, Option.some.injEq] at h
      subst h
      simp only [List.set_cons_zero, List.countP_cons]
      omega
    | succ j =>
      simp only [List.getElem?_cons_succ] at h
      have := ih j h
      simp only [List.set_cons_succ, List.countP_cons]
      omega

theorem sum_stepsLeft_set (l : List Phase) (i : Nat) (old new : Phase)
    (h : l[i]? = some old) :
    ((l.set i new).map Phase.stepsLeft).sum + old.stepsLeft =
      (l.map Phase.stepsLeft).sum + new.stepsLeft := by
  induction l generalizing i with
  | nil => simp at h
  | cons x xs ih =>
    cases i with
    | zero =>
      simp only [List.getElem?_cons_zero, Option.some.injEq] at h
      subst h
      simp only [List.set_cons_zero, List.map_cons, List.sum_cons]
      omega
    | succ j =>
      simp only [List.getElem?_cons_succ] at h
      have := ih j h
      simp only [List.set_cons_succ, List.map_cons, List.sum_cons]
      omega

theorem map_name_set (l : List Site) (i : Nat) (site x : Site) (h : l[i]? = some site)
    (hx : x.Name = site.Name) : (l.set i x).map Site.Name = l.map Site.Name := by
  induction l generalizing i with
  | nil => simp at h
  | cons y ys ih =>
    cases i with
    | zero =>
      simp only [List.getElem?_cons_zero, Option.some.injEq] at h
      subst h
      simp [hx]
    | succ j =>
      simp only [List.getElem?_cons_succ] at h
      simp [ih j h]

theorem getElem?_set_cases {α : Type} (l : List α) (i j : Nat) (new x : α)
    (h : (l.set i new)[j]? = some x) : (j = i ∧ x = new) ∨ (j ≠ i ∧ l[j]? = some x) := by
  by_cases hji : j = i
  · subst hji
    left
    have hlt : j < l.length := by
      have := (List.getElem?_eq_some_iff.mp h).1
      simpa using this
    rw [List.getElem?_set_self hlt] at h
    simp only [Option.some.injEq] at h
    exact ⟨rfl, h.symm⟩
  · right
    rw [List.getElem?_set_ne (Ne.symm hji)] at h
    exact ⟨hji, h⟩

theorem TickInv.of_goroutine_step {conc n : Nat} {names : List String} {s s1 : TickState}
    (hinv : TickInv conc n names s) (i : Nat) (old new : Phase)
    (hold : s.phases[i]? = some old) (hoi : old ≠ Phase.idle) (hni : new ≠ Phase.idle)
    (hph : s1.phases = s.phases.set i new)
    (hsl : s1.sites.length = s.sites.length)
    (hnm : s1.sites.map Site.Name = s.sites.map Site.Name)
    (hnext : s1.next = s.next) (hret : s1.returned = s.returned)
    (hwg : s1.wg + (if old.pending then 1 else 0) = s.wg + (if new.pending then 1 else 0))
    (hsem : s1.sem + (if old.holdsSlot then 1 else 0) =
      s.sem + (if new.holdsSlot then 1 else 0))
    (hwgle : s1.wg ≤ s.wg) (hsemle : s1.sem ≤ s.sem) : TickInv conc n names s1 := by
  have hcw := countP_set_phase Phase.pending s.phases i old new hold
  have hcs := countP_set_phase Phase.holdsSlot s.phases i old new hold
  have hw := hinv.wg_eq
  have hs := hinv.sem_eq
  refine ⟨by rw [hsl]; exact hinv.len_sites, by rw [hph, List.length_set]; exact hinv.len_phases,
    by rw [hnm]; exact hinv.names_eq, by rw [hnext]; exact hinv.next_le, ?_, ?_, ?_, ?_, ?_⟩
  · intro j hj
    rw [hph, hnext]
    by_cases hji : j = i
    · subst hji
      have hlt : j < s.phases.length := by rw [hinv.len_phases]; exact hj
      rw [List.getElem?_set_self hlt]
      have h1 := hinv.idle_iff j hj
      rw [hold] at h1
      constructor
      · intro h
        simp only [Option.some.injEq] at h
        exact absurd h hni
      · intro h
        have := h1.mpr h
        simp only [Option.some.injEq] at this
        exact absurd this hoi
    · rw [List.getElem?_set_ne (Ne.symm hji)]
      exact hinv.idle_iff j hj
  · rw [hph]
    omega
  · rw [hph]
    omega
  · have := hinv.sem_le
    omega
  · intro hr
    rw [hret] at hr
    have := hinv.ret hr
    rw [hnext]
    exact ⟨this.1, by omega⟩

theorem countP_pos_of_getElem? (f : Phase → Bool) (l : List Phase) (i : Nat) (ph : Phase)
    (h : l[i]? = some ph) (hf : f ph = true) : 0 < l.countP f := by
  rw [List.countP_pos_iff]
  exact ⟨ph, List.getElem?_mem h, hf⟩

theorem stepTick_inv {conc n : Nat} {names : List String} {s s1 : TickState} (a : Action)
    (hinv : TickInv conc n names s) (hstep : stepTick conc s a = some s1) :
    TickInv conc n names s1 := by
  cases a with
  | launch =>
    simp only [stepTick] at hstep
    split at hstep
    · rename_i hc
      obtain ⟨hr, hlt, hsem⟩ := hc
      simp only [Option.some.injEq] at hstep
      subst hstep
      rw [hinv.len_sites] at hlt
      have hidle : s.phases[s.next]? = some Phase.idle := (hinv.idle_iff s.next hlt).mpr (le_refl _)
      have hcw := countP_set_phase Phase.pending s.phases s.next Phase.idle Phase.spawned hidle
      have hcs := countP_set_phase Phase.holdsSlot s.phases s.next Phase.idle Phase.spawned hidle
      have hw := hinv.wg_eq
      have hs := hinv.sem_eq
      simp only [Phase.pending, Phase.holdsSlot, Bool.false_eq_true, if_false, if_true] at hcw hcs
      refine ⟨hinv.len_sites, by simp only [List.length_set]; exact hinv.len_phases,
        hinv.names_eq, hlt, ?_, ?_, ?_, ?_, ?_⟩
      · intro j hj
        simp only
        by_cases hji : j = s.next
        · subst hji
          have hlt2 : s.next < s.phases.length := by rw [hinv.len_phases]; exact hj
          rw [List.getElem?_set_self hlt2]
          simp
        · rw [List.getElem?_set_ne (Ne.symm hji)]
          rw [hinv.idle_iff j hj]
          omega
      · simp only
        omega
      · simp only
        omega
      · simp only
        omega
      · intro hret
        simp only at hret
        rw [hr] at hret
        exact absurd hret (by decide)
    · exact absurd hstep (by simp)
  | start i now =>
    simp only [stepTick] at hstep
    split at hstep
    · rename_i heq
      simp only [Option.some.injEq] at hstep
      subst hstep
      exact hinv.of_goroutine_step i Phase.spawned (Phase.started now) heq (by simp) (by simp)
        rfl rfl rfl rfl rfl (by simp [Phase.pending]) (by simp [Phase.holdsSlot])
        (le_refl _) (le_refl _)
    · exact absurd hstep (by simp)
  | respond i outcome now =>
    simp only [stepTick] at hstep
    split at hstep
    · rename_i startTime site heq hsite
      simp only [Option.some.injEq] at hstep
      subst hstep
      refine hinv.of_goroutine_step i (Phase.started startTime) Phase.measured heq (by simp)
        (by simp) rfl (by simp) ?_ rfl rfl (by simp [Phase.pending]) (by simp [Phase.holdsSlot])
        (le_refl _) (le_refl _)
      exact map_name_set _ _ site _ hsite (by cases outcome <;> rfl)
    · exact absurd hstep (by simp)
  | stamp i now =>
    simp only [stepTick] at hstep
    split at hstep
    · rename_i site heq hsite
      simp only [Option.some.injEq] at hstep
      subst hstep
      refine hinv.of_goroutine_step i Phase.measured Phase.stamped heq (by simp)
        (by simp) rfl (by simp) ?_ rfl rfl (by simp [Phase.pending]) (by simp [Phase.holdsSlot])
        (le_refl _) (le_refl _)
      exact map_name_set _ _ site _ hsite rfl
    · exact absurd hstep (by simp)
  | signal i =>
    simp only [stepTick] at hstep
    split at hstep
    · rename_i heq
      simp only [Option.some.injEq] at hstep
      subst hstep
      have hpos := countP_pos_of_getElem? Phase.pending s.phases i Phase.stamped heq rfl
      have hw := hinv.wg_eq
      refine hinv.of_goroutine_step i Phase.stamped Phase.signalled heq (by simp)
        (by simp) rfl rfl rfl rfl rfl ?_ (by simp [Phase.holdsSlot]) ?_ (le_refl _)
      · simp only [Phase.pending, Bool.false_eq_true, if_false, if_true]
        omega
      · simp only
        omega
    · exact absurd hstep (by simp)
  | release i =>
    simp only [stepTick] at hstep
    split at hstep
    · rename_i heq
      simp only [Option.some.injEq] at hstep
      subst hstep
      have hpos := countP_pos_of_getElem? Phase.holdsSlot s.phases i Phase.signalled heq rfl
      have hs := hinv.sem_eq
      refine hinv.of_goroutine_step i Phase.signalled Phase.released heq (by simp)
        (by simp) rfl rfl rfl rfl rfl (by simp [Phase.pending]) ?_ (le_refl _) ?_
      · simp only [Phase.holdsSlot, Bool.false_eq_true, if_false, if_true]
        omega
      · simp only
        omega
    · exact absurd hstep (by simp)
  | wait =>
    simp only [stepTick] at hstep
    split at hstep
    · rename_i hc
      obtain ⟨hr, hnext, hwg⟩ := hc
      simp only [Option.some.injEq] at hstep
      subst hstep
      refine ⟨hinv.len_sites, hinv.len_phases, hinv.names_eq, hinv.next_le, hinv.idle_iff,
        hinv.wg_eq, hinv.sem_eq, hinv.sem_le, ?_⟩
      intro _
      exact ⟨by rw [← hinv.len_sites]; exact hnext, hwg⟩
    · exact absurd hstep (by simp)

theorem initTick_inv (conc : Nat) (sites : List Site) :
    TickInv conc sites.length (sites.map Site.Name) (initTick sites) := by
  have hz : ∀ f : Phase → Bool, f Phase.idle = false →
      (List.replicate sites.length Phase.idle).countP f = 0 := by
    intro f hf
    rw [List.countP_eq_zero]
    intro x hx
    rw [List.eq_of_mem_replicate hx, hf]
    simp
  refine ⟨rfl, by simp [initTick], rfl, Nat.zero_le _, ?_, ?_, ?_, Nat.zero_le _, ?_⟩
  · intro i hi
    simp [initTick, List.getElem?_replicate, hi]
  · simp only [initTick]
    rw [hz Phase.pending rfl]
  · simp only [initTick]
    rw [hz Phase.holdsSlot rfl]
  · intro h
    simp [initTick] at h

theorem runTick_inv {conc n : Nat} {names : List String} (tr : List Action)
    {s s1 : TickState} (hinv : TickInv conc n names s) (hrun : runTick conc s tr = some s1) :
    TickInv conc n names s1 := by
  induction tr generalizing s with
  | nil =>
    simp only [runTick, Option.some.injEq] at hrun
    subst hrun
    exact hinv
  | cons a rest ih =>
    simp only [runTick] at hrun
    split at hrun
    · rename_i s2 hstep
      exact ih (stepTick_inv a hinv hstep) hrun
    · exact absurd hrun (by simp)

theorem stepTick_stepsLeft {conc : Nat} {s s1 : TickState} (a : Action)
    (hstep : stepTick conc s a = some s1) (hidle : s.phases[s.next]? = some Phase.idle ∨
      s.sites.length ≤ s.next) :
    stepsLeft s1 + 1 = stepsLeft s := by
  cases a with
  | launch =>
    simp only [stepTick] at hstep
    split at hstep
    · rename_i hc
      simp only [Option.some.injEq] at hstep
      subst hstep
      rcases hidle with hidle | hge
      · have := sum_stepsLeft_set s.phases s.next Phase.idle Phase.spawned hidle
        simp only [Phase.stepsLeft] at this
        simp only [stepsLeft]
        omega
      · omega
    · exact absurd hstep (by simp)
  | start i now =>
    simp only [stepTick] at hstep
    split at hstep
    · rename_i heq
      simp only [Option.some.injEq] at hstep
      subst hstep
      have := sum_stepsLeft_set s.phases i Phase.spawned (Phase.started now) heq
      simp only [Phase.stepsLeft] at this
      simp only [stepsLeft]
      omega
    · exact absurd hstep (by simp)
  | respond i outcome now =>
    simp only [stepTick] at hstep
    split at hstep
    · rename_i startTime site heq hsite
      simp only [Option.some.injEq] at hstep
      subst hstep
      have := sum_stepsLeft_set s.phases i (Phase.started startTime) Phase.measured heq
      simp only [Phase.stepsLeft] at this
      simp only [stepsLeft]
      omega
    · exact absurd hstep (by simp)
  | stamp i now =>
    simp only [stepTick] at hstep
    split at hstep
    · rename_i site heq hsite
      simp only [Option.some.injEq] at hstep
      subst hstep
      have := sum_stepsLeft_set s.phases i Phase.measured Phase.stamped heq
      simp only [Phase.stepsLeft] at this
      simp only [stepsLeft]
      omega
    · exact absurd hstep (by simp)
  | signal i =>
    simp only [stepTick] at hstep
    split at hstep
    · rename_i heq
      simp only [Option.some.injEq] at hstep
      subst hstep
      have := sum_stepsLeft_set s.phases i Phase.stamped Phase.signalled heq
      simp only [Phase.stepsLeft] at this
      simp only [stepsLeft]
      omega
    · exact absurd hstep (by simp)
  | release i =>
    simp only [stepTick] at hstep
    split at hstep
    · rename_i heq
      simp only [Option.some.injEq] at hstep
      subst hstep
      have := sum_stepsLeft_set s.phases i Phase.signalled Phase.released heq
      simp only [Phase.stepsLeft] at this
      simp only [stepsLeft]
      omega
    · exact absurd hstep (by simp)
  | wait =>
    simp only [stepTick] at hstep
    split at hstep
    · rename_i hc
      simp only [Option.some.injEq] at hstep
      subst hstep
      simp [stepsLeft, hc.1]
    · exact absurd hstep (by simp)

theorem runTick_stepsLeft {conc n : Nat} {names : List String} (tr : List Action)
    {s s1 : TickState} (hinv : TickInv conc n names s) (hrun : runTick conc s tr = some s1) :
    stepsLeft s1 + tr.length = stepsLeft s := by
  induction tr generalizing s with
  | nil =>
    simp only [runTick, Option.some.injEq] at hrun
    subst hrun
    rfl
  | cons a rest ih =>
    simp only [runTick] at hrun
    split at hrun
    · rename_i s2 hstep
      have h1 := ih (stepTick_inv a hinv hstep) hrun
      have h2 : stepsLeft s2 + 1 = stepsLeft s := by
        apply stepTick_stepsLeft a hstep
        by_cases hlt : s.next < n
        · exact Or.inl ((hinv.idle_iff s.next hlt).mpr (le_refl _))
        · right
          rw [hinv.len_sites]
          omega
      simp only [List.length_cons]
      omega
    · exact absurd hrun (by simp)

theorem stepsLeft_initTick (sites : List Site) : stepsLeft (initTick sites) = 6 * sites.length + 1 := by
  simp [stepsLeft, initTick, Phase.stepsLeft, Nat.mul_comm]

theorem tick_stuck_is_finished {conc n : Nat} {names : List String} {s : TickState}
    (hc : 1 ≤ conc) (hinv : TickInv conc n names s)
    (hstuck : ∀ a, stepTick conc s a = none) :
    s.returned = true ∧ s.next = n ∧ ∀ i, i < n → s.phases[i]? = some Phase.released := by
  have hsite : ∀ (i : Nat) (ph : Phase), s.phases[i]? = some ph →
      ∃ site, s.sites[i]? = some site := by
    intro i ph h
    have hlt : i < s.sites.length := by
      have := (List.getElem?_eq_some_iff.mp h).1
      rw [hinv.len_sites, ← hinv.len_phases]
      exact this
    exact ⟨s.sites[i], List.getElem?_eq_getElem hlt⟩
  have hph : ∀ (i : Nat) (ph : Phase), s.phases[i]? = some ph →
      ph = Phase.idle ∨ ph = Phase.released := by
    intro i ph h
    obtain ⟨site, hs⟩ := hsite i ph h
    cases ph with
    | idle => exact Or.inl rfl
    | released => exact Or.inr rfl
    | spawned =>
      have := hstuck (Action.start i 0)
      simp [stepTick, h] at this
    | started st =>
      have := hstuck (Action.respond i GetOutcome.err 0)
      simp [stepTick, h, hs] at this
    | measured =>
      have := hstuck (Action.stamp i 0)
      simp [stepTick, h, hs] at this
    | stamped =>
      have := hstuck (Action.signal i)
      simp [stepTick, h] at this
    | signalled =>
      have := hstuck (Action.release i)
      simp [stepTick, h] at this
  have hzero : ∀ f : Phase → Bool, f Phase.idle = false → f Phase.released = false →
      s.phases.countP f = 0 := by
    intro f h1 h2
    rw [List.countP_eq_zero]
    intro x hx
    obtain ⟨i, hi⟩ := List.mem_iff_getElem?.mp hx
    rcases hph i x hi with h | h <;> subst h <;> simp [h1, h2]
  have hwg : s.wg = 0 := by rw [hinv.wg_eq, hzero Phase.pending rfl rfl]
  have hsem : s.sem = 0 := by rw [hinv.sem_eq, hzero Phase.holdsSlot rfl rfl]
  have hnext : s.next = n := by
    by_contra hne
    have hlt : s.next < n := lt_of_le_of_ne hinv.next_le hne
    have hret : s.returned = false := by
      cases hr : s.returned with
      | false => rfl
      | true => exact absurd (hinv.ret hr).1 hne
    have := hstuck Action.launch
    simp only [stepTick] at this
    rw [if_pos ⟨hret, by rw [hinv.len_sites]; exact hlt, by omega⟩] at this
    exact absurd this (by simp)
  have hret : s.returned = true := by
    cases hr : s.returned with
    | true => rfl
    | false =>
      have := hstuck Action.wait
      simp only [stepTick] at this
      rw [if_pos ⟨hr, by rw [hinv.len_sites]; exact hnext, hwg⟩] at this
      exact absurd this (by simp)
  refine ⟨hret, hnext, ?_⟩
  intro i hi
  have hlt : i < s.phases.length := by rw [hinv.len_phases]; exact hi
  have hget : s.phases[i]? = some s.phases[i] := List.getElem?_eq_getElem hlt
  rcases hph i _ hget with h | h
  · rw [h] at hget
    have := (hinv.idle_iff i hi).mp hget
    omega
  · rw [h] at hget
    exact hget

theorem stepTick_stampInv {t0 : Int} {conc : Nat} {s s1 : TickState} (a : Action)
    (hstep : stepTick conc s a = some s1) (hr : ∀ r, reading a = some r → t0 ≤ r)
    (h : StampInv t0 s) : StampInv t0 s1 := by
  cases a with
  | launch =>
    simp only [stepTick] at hstep
    split at hstep
    · simp only [Option.some.injEq] at hstep
      subst hstep
      intro j ph site hph hsite hsw
      rcases getElem?_set_cases _ _ _ _ _ hph with ⟨_, hp⟩ | ⟨_, hp⟩
      · subst hp
        exact absurd hsw (by decide)
      · exact h j ph site hp hsite hsw
    · exact absurd hstep (by simp)
  | start i now =>
    simp only [stepTick] at hstep
    split at hstep
    · simp only [Option.some.injEq] at hstep
      subst hstep
      intro j ph site hph hsite hsw
      rcases getElem?_set_cases _ _ _ _ _ hph with ⟨_, hp⟩ | ⟨_, hp⟩
      · subst hp
        exact absurd hsw (by simp [Phase.stampWritten])
      · exact h j ph site hp hsite hsw
    · exact absurd hstep (by simp)
  | respond i outcome now =>
    simp only [stepTick] at hstep
    split at hstep
    · simp only [Option.some.injEq] at hstep
      subst hstep
      intro j ph site hph hsite hsw
      rcases getElem?_set_cases _ _ _ _ _ hph with ⟨_, hp⟩ | ⟨hji, hp⟩
      · subst hp
        exact absurd hsw (by decide)
      · simp only at hsite
        rw [List.getElem?_set_ne (Ne.symm hji)] at hsite
        exact h j ph site hp hsite hsw
    · exact absurd hstep (by simp)
  | stamp i now =>
    simp only [stepTick] at hstep
    split at hstep
    · simp only [Option.some.injEq] at hstep
      subst hstep
      intro j ph site hph hsite hsw
      simp only at hsite
      rcases getElem?_set_cases _ _ _ _ _ hsite with ⟨_, hs⟩ | ⟨hji, hs⟩
      · subst hs
        exact hr now rfl
      · simp only at hph
        rw [List.getElem?_set_ne (Ne.symm hji)] at hph
        exact h j ph site hph hs hsw
    · exact absurd hstep (by simp)
  | signal i =>
    simp only [stepTick] at hstep
    split at hstep
    · rename_i heq
      simp only [Option.some.injEq] at hstep
      subst hstep
      intro j ph site hph hsite hsw
      rcases getElem?_set_cases _ _ _ _ _ hph with ⟨hji, _⟩ | ⟨_, hp⟩
      · subst hji
        exact h j Phase.stamped site heq hsite rfl
      · exact h j ph site hp hsite hsw
    · exact absurd hstep (by simp)
  | release i =>
    simp only [stepTick] at hstep
    split at hstep
    · rename_i heq
      simp only [Option.some.injEq] at hstep
      subst hstep
      intro j ph site hph hsite hsw
      rcases getElem?_set_cases _ _ _ _ _ hph with ⟨hji, _⟩ | ⟨_, hp⟩
      · subst hji
        exact h j Phase.signalled site heq hsite rfl
      · exact h j ph site hp hsite hsw
    · exact absurd hstep (by simp)
  | wait =>
    simp only [stepTick] at hstep
    split at hstep
    · simp only [Option.some.injEq] at hstep
      subst hstep
      exact h
    · exact absurd hstep (by simp)

theorem runTick_stampInv {t0 : Int} {conc : Nat} (tr : List Action) {s s1 : TickState}
    (hrun : runTick conc s tr = some s1) (hr : ∀ r ∈ clockReadings tr, t0 ≤ r)
    (h : StampInv t0 s) : StampInv t0 s1 := by
  induction tr generalizing s with
  | nil =>
    simp only [runTick, Option.some.injEq] at hrun
    subst hrun
    exact h
  | cons a rest ih =>
    simp only [runTick] at hrun
    split at hrun
    · rename_i s2 hstep
      apply ih hrun
      · intro r hmem
        apply hr
        simp only [clockReadings, List.filterMap_cons]
        cases hra : reading a with
        | none => exact hmem
        | some v => exact List.mem_cons_of_mem _ hmem
      · apply stepTick_stampInv a hstep _ h
        intro r hra
        apply hr
        simp [clockReadings, List.filterMap_cons, hra]
    · exact absurd hrun (by simp)

theorem initTick_stampInv (t0 : Int) (sites : List Site) : StampInv t0 (initTick sites) := by
  intro i ph site hph _ hsw
  simp only [initTick] at hph
  have hmem := List.getElem?_mem hph
  rw [List.eq_of_mem_replicate hmem] at hsw
  exact absurd hsw (by decide)

theorem tick_enabled_of_not_finished {conc n : Nat} {names : List String} {s : TickState}
    (hc : 1 ≤ conc) (hinv : TickInv conc n names s)
    (hnot : s.returned = false ∨ s.next < n) : ∃ a, (stepTick conc s a).isSome = true := by
  by_contra hno
  have hstuck : ∀ a, stepTick conc s a = none := by
    intro a
    cases hs : stepTick conc s a with
    | none => rfl
    | some s1 => exact absurd ⟨a, by simp [hs]⟩ hno
  obtain ⟨hret, hnext, _⟩ := tick_stuck_is_finished hc hinv hstuck
  rcases hnot with h | h
  · rw [hret] at h
    exact absurd h (by decide)
  · omega

theorem tick_can_complete {conc n : Nat} {names : List String} (hc : 1 ≤ conc) (k : Nat) :
    ∀ s : TickState, TickInv conc n names s → stepsLeft s ≤ k →
      ∃ tr2 s2, runTick conc s tr2 = some s2 ∧ s2.returned = true := by
  induction k with
  | zero =>
    intro s _ hk
    refine ⟨[], s, rfl, ?_⟩
    cases hr : s.returned with
    | true => rfl
    | false =>
      simp only [stepsLeft, hr, Bool.false_eq_true, if_false] at hk
      omega
  | succ k ih =>
    intro s hinv hk
    cases hr : s.returned with
    | true => exact ⟨[], s, rfl, hr⟩
    | false =>
      obtain ⟨a, ha⟩ := tick_enabled_of_not_finished hc hinv (Or.inl hr)
      cases hs : stepTick conc s a with
      | none => simp [hs] at ha
      | some s1 =>
        have hdec : stepsLeft s1 + 1 = stepsLeft s := by
          apply stepTick_stepsLeft a hs
          by_cases hlt : s.next < n
          · exact Or.inl ((hinv.idle_iff s.next hlt).mpr (le_refl _))
          · right
            rw [hinv.len_sites]
            omega
        obtain ⟨tr2, s2, hrun, hret⟩ := ih s1 (stepTick_inv a hinv hs) (by omega)
        exact ⟨a :: tr2, s2, by simp only [runTick, hs]; exact hrun, hret⟩

/-- C5: in every interleaving of one tick of `checkAllSites` with
`Concurrency >= 1` whose clock readings never go back from the tick's start
time `t0`, whatever the outcomes of the GETs: the list keeps its length and
its names in order; once `checkAllSites` has returned, `checkAvailability` has
returned for every site and every site has `LastCheckedAt >= t0`; and the tick
does complete: before the return some step is always enabled, no interleaving
has more than `6 * len(Sites) + 1` steps, and the steps run so far can be
continued to the return of `checkAllSites`. -/
theorem checkAllSites_stamps_every_site (conc : Nat) (sites : List Site) (t0 : Int)
    (tr : List Action) (s : TickState) (hc : 1 ≤ conc)
    (hclock : List.Chain (fun a b => a ≤ b) t0 (clockReadings tr))
    (hrun : runTick conc (initTick sites) tr = some s) :
    s.sites.length = sites.length ∧
    s.sites.map Site.Name = sites.map Site.Name ∧
    (s.returned = true → ∀ (i : Nat) (h : i < s.sites.length),
      (∃ ph, s.phases[i]? = some ph ∧ ph.checked = true) ∧
      t0 ≤ (s.sites.get ⟨i, h⟩).LastCheckedAt) ∧
    (s.returned = false → ∃ a, (stepTick conc s a).isSome = true) ∧
    tr.length ≤ 6 * sites.length + 1 ∧
    (∃ tr2 s2, runTick conc s tr2 = some s2 ∧ s2.returned = true) := by
  have hinv := runTick_inv tr (initTick_inv conc sites) hrun
  have hlen := runTick_stepsLeft tr (initTick_inv conc sites) hrun
  rw [stepsLeft_initTick] at hlen
  have hge : ∀ r ∈ clockReadings tr, t0 ≤ r := by
    have hp := List.chain_iff_pairwise.mp hclock
    exact fun r hr => List.rel_of_pairwise_cons hp hr
  have hst := runTick_stampInv tr hrun hge (initTick_stampInv t0 sites)
  refine ⟨hinv.len_sites, hinv.names_eq, ?_, ?_, by omega,
    tick_can_complete hc (stepsLeft s) s hinv (le_refl _)⟩
  · intro hret i hi
    obtain ⟨hnext, hwg⟩ := hinv.ret hret
    have hin : i < sites.length := by rw [← hinv.len_sites]; exact hi
    have hlt : i < s.phases.length := by rw [hinv.len_phases]; exact hin
    have hget : s.phases[i]? = some s.phases[i] := List.getElem?_eq_getElem hlt
    have hnotidle : s.phases[i] ≠ Phase.idle := by
      intro hid
      rw [hid] at hget
      have := (hinv.idle_iff i hin).mp hget
      omega
    have hnotpending : Phase.pending s.phases[i] = false := by
      have hz : s.phases.countP Phase.pending = 0 := by rw [← hinv.wg_eq]; exact hwg
      rw [List.countP_eq_zero] at hz
      have := hz s.phases[i] (List.getElem?_mem hget)
      simpa using this
    have hchk : Phase.checked s.phases[i] = true ∧ Phase.stampWritten s.phases[i] = true := by
      cases hp : s.phases[i] with
      | idle => exact absurd hp hnotidle
      | spawned => rw [hp] at hnotpending; exact absurd hnotpending (by decide)
      | started st => rw [hp] at hnotpending; exact absurd hnotpending (by simp [Phase.pending])
      | measured => rw [hp] at hnotpending; exact absurd hnotpending (by decide)
      | stamped => rw [hp] at hnotpending; exact absurd hnotpending (by decide)
      | signalled => exact ⟨rfl, rfl⟩
      | released => exact ⟨rfl, rfl⟩
    refine ⟨⟨s.phases[i], hget, hchk.1⟩, ?_⟩
    exact hst i s.phases[i] (s.sites.get ⟨i, hi⟩) hget (List.getElem?_eq_getElem hi) hchk.2
  · intro hret
    exact tick_enabled_of_not_finished hc hinv (Or.inl hret)

/-- C5, at an instance: a whole tick over two sites, one GET answering and one
failing. -/
theorem checkAllSites_stamps_every_site_witness :
    sampleTickEnd.sites.map Site.Name = sampleSites.map Site.Name ∧
    (sampleTickEnd.returned = true → ∀ (i : Nat) (h : i < sampleTickEnd.sites.length),
      (∃ ph, sampleTickEnd.phases[i]? = some ph ∧ ph.checked = true) ∧
      100 ≤ (sampleTickEnd.sites.get ⟨i, h⟩).LastCheckedAt) :=
  have h := checkAllSites_stamps_every_site 1 sampleSites 100 sampleTick sampleTickEnd
    (by decide) (by simp [clockReadings, sampleTick, reading]) (by decide)
  ⟨h.2.1, h.2.2.1⟩

end SiteMonitor
